import Mathlib

/-! CXXHash64: a shallow embedding of `cxxhash.h`.

Machine integers are natural numbers reduced modulo `2 ^ 64` after every
operation that can overflow.  The input buffer is the list of its readable
bytes; a load that touches an offset outside the list returns `none`, and the
failure is propagated to the result of the hash function.

`cxxhash.h` has two build-time variants of `xxhash64`: the one compiled when
`SSE4` is not defined is `xxhash64`, the one compiled when it is defined is
`xxhash64_sse`.
-/

namespace CXXHash64

/-! ## Constants -/

def XXH_PRIME64_1 : Nat := 11400714785074694791
def XXH_PRIME64_2 : Nat := 14029467366897019727
def XXH_PRIME64_3 : Nat := 1609587929392839161
def XXH_PRIME64_4 : Nat := 9650029242287828579
def XXH_PRIME64_5 : Nat := 2870177450012600261

/-- Number of values of a `uint64_t`. -/
def U64 : Nat := 2 ^ 64

/-! ## Memory -/

/-- One `unsigned char`. -/
abbrev Byte := Fin 256

/-- Little-endian load of `width` bytes starting at offset `off`; `none` when
one of the bytes is outside the buffer. -/
def loadLE (buf : List Byte) : Nat → Nat → Option Nat
  | _, 0 => some 0
  | off, width + 1 =>
    match buf[off]?, loadLE buf (off + 1) width with
    | some b, some r => some (b.val + 256 * r)
    | _, _ => none

/-- Dereference of an `unsigned char` pointer: `*p`. -/
def load8 (buf : List Byte) (off : Nat) : Option Nat := loadLE buf off 1

/-- Dereference of a `uint32_t` pointer: `*(const uint32_t*)p`. -/
def load32 (buf : List Byte) (off : Nat) : Option Nat := loadLE buf off 4

/-- Dereference of a `uint64_t` pointer: `*(const uint64_t*)p`. -/
def load64 (buf : List Byte) (off : Nat) : Option Nat := loadLE buf off 8

/-! ## Mixing primitives -/

/-- The C expression `(value << shift) | (value >> (64 - shift))` on `uint64_t`. -/
def rotl64 (value shift : Nat) : Nat :=
  ((value <<< shift) % U64) ||| (value >>> (64 - shift))

def xxh64_round (acc input : Nat) : Nat :=
  let acc := (acc + input * XXH_PRIME64_2) % U64
  let acc := rotl64 acc 31
  let acc := (acc * XXH_PRIME64_1) % U64
  acc

def xxh64_merge_round (acc val : Nat) : Nat :=
  let acc := acc ^^^ xxh64_round 0 val
  let acc := (acc * XXH_PRIME64_1 + XXH_PRIME64_4) % U64
  acc

def xxh64_final_mix (hash : Nat) : Nat :=
  let hash := hash ^^^ (hash >>> 33)
  let hash := (hash * XXH_PRIME64_2) % U64
  let hash := hash ^^^ (hash >>> 29)
  let hash := (hash * XXH_PRIME64_3) % U64
  let hash := hash ^^^ (hash >>> 32)
  hash

/-! ## Small-input path -/

/-- One iteration body of the byte loop: `hash ^= (*p) * PRIME5;
hash = rotl64(hash, 11) * PRIME1`. -/
def byteStep (hash b : Nat) : Nat :=
  let hash := hash ^^^ ((b * XXH_PRIME64_5) % U64)
  (rotl64 hash 11 * XXH_PRIME64_1) % U64

/-- The loop `while (p < input + len) { ...; p++; }`.  The first argument
bounds the number of iterations; `len - p` is always enough. -/
def byteLoop (input : List Byte) (len : Nat) : Nat → Nat → Nat → Option Nat
  | 0, p, hash => if p < len then none else some hash
  | fuel + 1, p, hash =>
    if p < len then
      match load8 input p with
      | some b => byteLoop input len fuel (p + 1) (byteStep hash b)
      | none => none
    else some hash

/-- The function `xxh64_small`.  The cursor `p` is an offset from `input`. -/
def xxh64_small (input : List Byte) (len seed : Nat) : Option Nat :=
  let p := 0
  let hash := (seed + XXH_PRIME64_5 + len) % U64
  let st : Option (Nat × Nat) :=
    if len ≥ 8 then
      match load64 input p with
      | some k1 =>
        let p := p + 8
        let p := p + 8
        let hash := hash ^^^ xxh64_round 0 k1
        let hash := (rotl64 hash 27 * XXH_PRIME64_1 + XXH_PRIME64_4) % U64
        some (p, hash)
      | none => none
    else some (p, hash)
  match st with
  | none => none
  | some (p, hash) =>
    let st : Option (Nat × Nat) :=
      if len &&& 4 ≠ 0 then
        match load32 input p with
        | some k2 =>
          let p := p + 4
          let hash := hash ^^^ ((k2 * XXH_PRIME64_1) % U64)
          let hash := (rotl64 hash 23 * XXH_PRIME64_2 + XXH_PRIME64_3) % U64
          let p := p + 4
          some (p, hash)
        | none => none
      else some (p, hash)
    match st with
    | none => none
    | some (p, hash) =>
      match byteLoop input len (len - p) p hash with
      | some hash => some (xxh64_final_mix hash)
      | none => none

/-! ## Large-input path, scalar variant (`SSE4` not defined) -/

/-- The four accumulators `v1 .. v4`. -/
structure Lanes where
  v1 : Nat
  v2 : Nat
  v3 : Nat
  v4 : Nat
  deriving DecidableEq, Repr

/-- The loop `do { ... } while (p <= limit)` of the scalar variant; the
prefetch hints have no effect on the result.  Returns the cursor and the
accumulators at loop exit.  The first argument bounds the number of
iterations. -/
def mainLoop (input : List Byte) (limit : Nat) : Nat → Nat → Lanes → Option (Nat × Lanes)
  | 0, _, _ => none
  | fuel + 1, p, v =>
    match load64 input p, load64 input (p + 8), load64 input (p + 16),
        load64 input (p + 24) with
    | some k1, some k2, some k3, some k4 =>
      let p := p + 32
      let v : Lanes :=
        { v1 := xxh64_round v.v1 k1, v2 := xxh64_round v.v2 k2,
          v3 := xxh64_round v.v3 k3, v4 := xxh64_round v.v4 k4 }
      if p ≤ limit then mainLoop input limit fuel p v else some (p, v)
    | _, _, _, _ => none

/-- The combine step of the scalar variant. -/
def mergeLanes (v : Lanes) : Nat :=
  let hash_64 := (rotl64 v.v1 1 + rotl64 v.v2 7 + rotl64 v.v3 12 + rotl64 v.v4 18) % U64
  let hash_64 := xxh64_merge_round hash_64 v.v1
  let hash_64 := xxh64_merge_round hash_64 v.v2
  let hash_64 := xxh64_merge_round hash_64 v.v3
  let hash_64 := xxh64_merge_round hash_64 v.v4
  hash_64

/-- The loop `while (p < b_end) { ...; p++; }` at the end of `xxhash64`. -/
def tailByteLoop (input : List Byte) (b_end : Nat) : Nat → Nat → Nat → Option Nat
  | 0, p, hash_64 => if p < b_end then none else some hash_64
  | fuel + 1, p, hash_64 =>
    if p < b_end then
      match load8 input p with
      | some b =>
        let hash_64 := hash_64 ^^^ ((b * XXH_PRIME64_5) % U64)
        let hash_64 := (rotl64 hash_64 11 * XXH_PRIME64_1) % U64
        tailByteLoop input b_end fuel (p + 1) hash_64
      | none => none
    else some hash_64

/-- The code of `xxhash64` from `hash_64 += len` to the end, shared by both
build variants. -/
def xxhash64_tail (input : List Byte) (len b_end p hash_64 : Nat) : Option Nat :=
  let hash_64 := (hash_64 + len) % U64
  let st : Option (Nat × Nat) :=
    if p + 8 ≤ b_end then
      match load64 input p with
      | some k1 =>
        let p := p + 8
        let k1_round := xxh64_round 0 k1
        let hash_64 := hash_64 ^^^ k1_round
        let hash_64 := (rotl64 hash_64 27 * XXH_PRIME64_1 * XXH_PRIME64_4) % U64
        some (p, hash_64)
      | none => none
    else some (p, hash_64)
  match st with
  | none => none
  | some (p, hash_64) =>
    let st : Option (Nat × Nat) :=
      if p + 4 ≤ b_end then
        match load32 input p with
        | some k2 =>
          let p := p + 4
          let hash_64 := hash_64 ^^^ ((k2 * XXH_PRIME64_1) % U64)
          let hash_64 := (rotl64 hash_64 23 * XXH_PRIME64_2 * XXH_PRIME64_3) % U64
          some (p, hash_64)
        | none => none
      else some (p, hash_64)
    match st with
    | none => none
    | some (p, hash_64) =>
      match tailByteLoop input b_end (b_end - p) p hash_64 with
      | some hash_64 => some (xxh64_final_mix hash_64)
      | none => none

/-- The function `xxhash64` as compiled without `SSE4`.  The parameter `seed`
is a `uint64_t`: `v3 = seed` is `seed % U64`, and `seed - PRIME1` is
`seed + (U64 - PRIME1)` modulo `U64`.  The main loop runs at most `len / 32`
times. -/
def xxhash64 (input : List Byte) (len seed : Nat) : Option Nat :=
  if len < 32 then xxh64_small input len seed
  else
    let p := 0
    let b_end := p + len
    let st : Option (Nat × Nat) :=
      if len ≥ 32 then
        let limit := b_end - 32
        let v : Lanes :=
          { v1 := (seed + XXH_PRIME64_1 + XXH_PRIME64_2) % U64
            v2 := (seed + XXH_PRIME64_2) % U64
            v3 := seed % U64
            v4 := (seed + (U64 - XXH_PRIME64_1)) % U64 }
        match mainLoop input limit (len / 32) p v with
        | some (p, v) => some (p, mergeLanes v)
        | none => none
      else some (p, (seed + XXH_PRIME64_5) % U64)
    match st with
    | some (p, hash_64) => xxhash64_tail input len b_end p hash_64
    | none => none

/-! ## Large-input path, vector variant (`SSE4` defined) -/

/-- An `__m128i` seen as two 64-bit lanes; `lo` is the lane at the lower
address (element 0). -/
structure M128 where
  lo : Nat
  hi : Nat
  deriving DecidableEq, Repr

/-- `_mm_set_epi64x(e1, e0)`: `e0` goes to the low lane. -/
def mm_set_epi64x (e1 e0 : Nat) : M128 := { lo := e0, hi := e1 }

def mm_set1_epi64x (a : Nat) : M128 := { lo := a, hi := a }

def mm_slli_epi64 (x : M128) (r : Nat) : M128 :=
  { lo := (x.lo <<< r) % U64, hi := (x.hi <<< r) % U64 }

def mm_srli_epi64 (x : M128) (r : Nat) : M128 :=
  { lo := x.lo >>> r, hi := x.hi >>> r }

def mm_or_si128 (a b : M128) : M128 := { lo := a.lo ||| b.lo, hi := a.hi ||| b.hi }

def mm_xor_si128 (a b : M128) : M128 := { lo := a.lo ^^^ b.lo, hi := a.hi ^^^ b.hi }

def mm_add_epi64 (a b : M128) : M128 :=
  { lo := (a.lo + b.lo) % U64, hi := (a.hi + b.hi) % U64 }

/-- `_mm_mul_epu32`: in each 64-bit lane, the product of the low 32 bits of
the two operands. -/
def mm_mul_epu32 (a b : M128) : M128 :=
  { lo := (a.lo % 2 ^ 32) * (b.lo % 2 ^ 32), hi := (a.hi % 2 ^ 32) * (b.hi % 2 ^ 32) }

/-- `_mm_load_si128((const __m128i*)p)`: sixteen bytes, little-endian lanes. -/
def mm_load_si128 (buf : List Byte) (off : Nat) : Option M128 :=
  match load64 buf off, load64 buf (off + 8) with
  | some lo, some hi => some { lo := lo, hi := hi }
  | _, _ => none

def xxh_rotl_epi64 (x : M128) (r : Nat) : M128 :=
  let left := mm_slli_epi64 x r
  let right := mm_srli_epi64 x (64 - r)
  mm_or_si128 left right

def xxh_mul_epi64 (x : M128) (p : Nat) : M128 :=
  let prime := mm_set1_epi64x p
  let lo := mm_mul_epu32 x prime
  let hi := mm_mul_epu32 (mm_srli_epi64 x 32) prime
  mm_add_epi64 lo (mm_slli_epi64 hi 32)

def xxh_round_sse (acc input : M128) : M128 :=
  let acc := mm_add_epi64 acc input
  let acc := xxh_rotl_epi64 acc 31
  let acc := xxh_mul_epi64 acc XXH_PRIME64_1
  acc

def xxh_merge_round_sse (acc input : M128) : M128 :=
  let acc := mm_xor_si128 acc (xxh_round_sse (mm_set1_epi64x 0) input)
  let acc := xxh_mul_epi64 acc XXH_PRIME64_1
  let acc := mm_add_epi64 acc (mm_set1_epi64x XXH_PRIME64_4)
  acc

/-- The loop `do { ... } while (p <= limit)` of the vector variant. -/
def mainLoop_sse (input : List Byte) (limit : Nat) :
    Nat → Nat → M128 → M128 → Option (Nat × M128 × M128)
  | 0, _, _, _ => none
  | fuel + 1, p, v12, v34 =>
    match mm_load_si128 input p, mm_load_si128 input (p + 16) with
    | some k12, some k34 =>
      let p := p + 16
      let p := p + 16
      let v12 := xxh_round_sse v12 k12
      let v34 := xxh_round_sse v34 k34
      if p ≤ limit then mainLoop_sse input limit fuel p v12 v34 else some (p, v12, v34)
    | _, _ => none

/-- The combine step of the vector variant. -/
def mergeLanes_sse (v12 v34 : M128) : Nat :=
  let hash_64 := (rotl64 v12.lo 1 + rotl64 v12.hi 7 + rotl64 v34.lo 12 + rotl64 v34.hi 18) % U64
  let acc := mm_set1_epi64x hash_64
  let acc := xxh_merge_round_sse acc v12
  let acc := xxh_merge_round_sse acc v34
  acc.lo ^^^ acc.hi

/-- The function `xxhash64` as compiled with `SSE4`. -/
def xxhash64_sse (input : List Byte) (len seed : Nat) : Option Nat :=
  if len < 32 then xxh64_small input len seed
  else
    let p := 0
    let b_end := p + len
    let st : Option (Nat × Nat) :=
      if len ≥ 32 then
        let limit := b_end - 32
        let v12 := mm_set_epi64x ((seed + XXH_PRIME64_1 * XXH_PRIME64_2) % U64)
          ((seed + XXH_PRIME64_2) % U64)
        let v34 := mm_set_epi64x (seed % U64) ((seed + (U64 - XXH_PRIME64_1)) % U64)
        match mainLoop_sse input limit (len / 32) p v12 v34 with
        | some (p, v12, v34) => some (p, mergeLanes_sse v12 v34)
        | none => none
      else some (p, (seed + XXH_PRIME64_5) % U64)
    match st with
    | some (p, hash_64) => xxhash64_tail input len b_end p hash_64
    | none => none

/-! ## Reference definitions

The definitions below do not come from `cxxhash.h`: they restate the
algorithms that the specification names, so that the code can be compared
with them.  They read the byte sequence with `readLE`, which is total. -/

/-- Little-endian value of the `width` bytes of `b` starting at `off`; a byte
outside `b` counts as zero (the reference definitions never read one). -/
def readLE (b : List Byte) : Nat → Nat → Nat
  | _, 0 => 0
  | off, width + 1 => (b.getD off 0).val + 256 * readLE b (off + 1) width

/-- Initial accumulators of the specification:
`v1 = seed+PRIME1+PRIME2, v2 = seed+PRIME2, v3 = seed, v4 = seed-PRIME1`. -/
def specLanesInit (seed : Nat) : Lanes :=
  { v1 := (seed + XXH_PRIME64_1 + XXH_PRIME64_2) % U64
    v2 := (seed + XXH_PRIME64_2) % U64
    v3 := seed % U64
    v4 := (seed + (U64 - XXH_PRIME64_1)) % U64 }

/-- Accumulators of the specification after the 32-byte blocks `0 .. n - 1`:
each block updates `vN = xxh64_round(vN, kN)` with `kN` the `N`-th 8-byte
little-endian word of the block. -/
def specLanes (b : List Byte) (seed : Nat) : Nat → Lanes
  | 0 => specLanesInit seed
  | n + 1 =>
    let v := specLanes b seed n
    { v1 := xxh64_round v.v1 (readLE b (32 * n) 8)
      v2 := xxh64_round v.v2 (readLE b (32 * n + 8) 8)
      v3 := xxh64_round v.v3 (readLE b (32 * n + 16) 8)
      v4 := xxh64_round v.v4 (readLE b (32 * n + 24) 8) }

/-- Combine step of the specification: the sum of the rotated lanes, folded
with `merge_round` over `v1, v2, v3, v4` in this order. -/
def specMerge (v : Lanes) : Nat :=
  xxh64_merge_round
    (xxh64_merge_round
      (xxh64_merge_round
        (xxh64_merge_round
          ((rotl64 v.v1 1 + rotl64 v.v2 7 + rotl64 v.v3 12 + rotl64 v.v4 18) % U64) v.v1)
        v.v2)
      v.v3)
    v.v4

/-- Tail steps of the canonical XXH64 algorithm, repeated until the input is
exhausted: an 8-byte step while 8 bytes remain, else a 4-byte step while 4
bytes remain, else a 1-byte step.  The first argument bounds the number of
steps. -/
def XXH64_finalize (b : List Byte) : Nat → Nat → Nat → Nat
  | 0, _, h => h
  | fuel + 1, p, h =>
    if p + 8 ≤ b.length then
      let h := h ^^^ xxh64_round 0 (readLE b p 8)
      XXH64_finalize b fuel (p + 8) ((rotl64 h 27 * XXH_PRIME64_1 + XXH_PRIME64_4) % U64)
    else if p + 4 ≤ b.length then
      let h := h ^^^ ((readLE b p 4 * XXH_PRIME64_1) % U64)
      XXH64_finalize b fuel (p + 4) ((rotl64 h 23 * XXH_PRIME64_2 + XXH_PRIME64_3) % U64)
    else if p < b.length then
      let h := h ^^^ ((readLE b p 1 * XXH_PRIME64_5) % U64)
      XXH64_finalize b fuel (p + 1) ((rotl64 h 11 * XXH_PRIME64_1) % U64)
    else h

/-- The canonical XXH64 digest of the byte sequence `b` under `seed`:
32-byte stripes on four lanes and their merge when `b` has 32 bytes or more,
`seed + PRIME5` otherwise; plus the length; the tail steps; the avalanche. -/
def XXH64 (b : List Byte) (seed : Nat) : Nat :=
  let n := b.length
  let h := if n ≥ 32 then specMerge (specLanes b seed (n / 32)) else (seed + XXH_PRIME64_5) % U64
  xxh64_final_mix (XXH64_finalize b (n % 32) (32 * (n / 32)) ((h + n) % U64))

/-- Byte-wise steps of the small-input reference: absorbs the bytes at
offsets `p, p + 1, ..., p + count - 1`. -/
def specSmallBytes (b : List Byte) : Nat → Nat → Nat → Nat
  | 0, _, hash => hash
  | count + 1, p, hash =>
    specSmallBytes b count (p + 1)
      ((rotl64 (hash ^^^ ((readLE b p 1 * XXH_PRIME64_5) % U64)) 11 * XXH_PRIME64_1) % U64)

/-- The small-input reference of the specification (length below 32). -/
def xxh64_small_spec (b : List Byte) (n seed : Nat) : Nat :=
  let hash := (seed + XXH_PRIME64_5 + n) % U64
  let cursor := 0
  let (cursor, hash) :=
    if n ≥ 8 then
      let hash := hash ^^^ xxh64_round 0 (readLE b cursor 8)
      (8, (rotl64 hash 27 * XXH_PRIME64_1 + XXH_PRIME64_4) % U64)
    else (cursor, hash)
  let (cursor, hash) :=
    if (n / 4) % 2 = 1 then
      let hash := hash ^^^ ((readLE b cursor 4 * XXH_PRIME64_1) % U64)
      (cursor + 4, (rotl64 hash 23 * XXH_PRIME64_2 + XXH_PRIME64_3) % U64)
    else (cursor, hash)
  xxh64_final_mix (specSmallBytes b (n - cursor) cursor hash)

/-- One 8-byte step of the tail path of the specification, in its
multiplicative form: `hash ^= round_mix(0,k); hash = rotl(hash,27)*PRIME1*PRIME4`. -/
def specTailStep8 (h k : Nat) : Nat :=
  (rotl64 (h ^^^ xxh64_round 0 k) 27 * XXH_PRIME64_1 * XXH_PRIME64_4) % U64

/-- One 4-byte step of the tail path of the specification, in its
multiplicative form: `hash ^= k*PRIME1; hash = rotl(hash,23)*PRIME2*PRIME3`. -/
def specTailStep4 (h k : Nat) : Nat :=
  (rotl64 (h ^^^ ((k * XXH_PRIME64_1) % U64)) 23 * XXH_PRIME64_2 * XXH_PRIME64_3) % U64

/-- The loop of the specification "while at least 8 bytes remain, absorb an
8-byte word": returns the cursor and the hash at loop exit.  The first
argument bounds the number of steps. -/
def specTailWhile8 (b : List Byte) (n : Nat) : Nat → Nat → Nat → Nat × Nat
  | 0, p, h => (p, h)
  | fuel + 1, p, h =>
    if p + 8 ≤ n then specTailWhile8 b n fuel (p + 8) (specTailStep8 h (readLE b p 8))
    else (p, h)

/-- The loop of the specification "while at least 4 bytes remain, absorb a
4-byte word". -/
def specTailWhile4 (b : List Byte) (n : Nat) : Nat → Nat → Nat → Nat × Nat
  | 0, p, h => (p, h)
  | fuel + 1, p, h =>
    if p + 4 ≤ n then specTailWhile4 b n fuel (p + 4) (specTailStep4 h (readLE b p 4))
    else (p, h)

/-- The tail path as the specification words it: 8-byte steps while 8 bytes
remain, then 4-byte steps while 4 bytes remain, then one step per remaining
byte.  `n` is the length, `p` the cursor, `h` the combined hash plus `n`. -/
def specTailWhile (b : List Byte) (n p h : Nat) : Nat :=
  let s8 := specTailWhile8 b n (n - p) p h
  let s4 := specTailWhile4 b n (n - s8.1) s8.1 s8.2
  specSmallBytes b (n - s4.1) s4.1 s4.2

/-- The tail path with single steps: one 8-byte step if 8 bytes remain, then
one 4-byte step if 4 bytes remain, then one step per remaining byte. -/
def specTailOnce (b : List Byte) (n p h : Nat) : Nat :=
  let s8 : Nat × Nat := if p + 8 ≤ n then (p + 8, specTailStep8 h (readLE b p 8)) else (p, h)
  let s4 : Nat × Nat :=
    if s8.1 + 4 ≤ n then (s8.1 + 4, specTailStep4 s8.2 (readLE b s8.1 4)) else s8
  specSmallBytes b (n - s4.1) s4.1 s4.2

/-! ## Test data -/

/-- The string `"abc"`. -/
def abc : List Byte := [97, 98, 99]

/-- The string `"123456789012345"`. -/
def digits15 : List Byte := [49, 50, 51, 52, 53, 54, 55, 56, 57, 48, 49, 50, 51, 52, 53]

/-- The string `"abcde"`. -/
def abcde : List Byte := [97, 98, 99, 100, 101]

/-- The string `"abcdefghi"`. -/
def abcdefghi : List Byte := [97, 98, 99, 100, 101, 102, 103, 104, 105]

/-! ## Literal digests -/

/-- The reference definition `XXH64` reproduces published XXH64 digests:
of the empty string, of `"a"` and of `"abc"` under seed 0. -/
theorem XXH64_known_digests :
    XXH64 [] 0 = 0xef46db3751d8e999 ∧ XXH64 [97] 0 = 0xd24ec4f1a98c6e5b ∧
      XXH64 abc 0 = 0x44bc2cf5ad770999 := by
  decide

/-- C1, as stated, fails: under seed 1 the digest of the empty input is not
`0xd24ec4f1a98c6e5b`, so the three literal digests do not hold together. -/
theorem c1_literal_digests_refuted :
    ¬ (xxhash64 [] 0 0 = some 0xef46db3751d8e999 ∧
        xxhash64 [] 0 1 = some 0xd24ec4f1a98c6e5b ∧
        xxhash64 abc 3 0 = some 0x44bc2cf5ad770999) := by
  decide

/-- C1, amended: `xxhash64("", 0, seed 0) = 0xef46db3751d8e999`,
`xxhash64("", 0, seed 1) = 0xd5afba1336a3be4b` and
`xxhash64("abc", 3, seed 0) = 0x44bc2cf5ad770999`. -/
theorem c1_literal_digests :
    xxhash64 [] 0 0 = some 0xef46db3751d8e999 ∧
      xxhash64 [] 0 1 = some 0xd5afba1336a3be4b ∧
      xxhash64 abc 3 0 = some 0x44bc2cf5ad770999 := by
  decide

/-- C2: on the buffer holding `"123456789012345"` and its terminator, with
length 15 and seed 0, `xxhash64` returns no digest: after the 8-byte word the
cursor is at offset 16, and the 4-byte load at offsets 16 to 19 is outside
the 16 bytes of the buffer. -/
theorem c2_digits15_load_outside_buffer :
    (digits15 ++ [0]).length = 16 ∧
      load64 (digits15 ++ [0]) 0 ≠ none ∧
      load32 (digits15 ++ [0]) 16 = none ∧
      xxhash64 (digits15 ++ [0]) 15 0 = none := by
  decide

/-- C3: on the five bytes of `"abcde"` under seed 0 every load of `xxhash64`
is inside the buffer, and the digest it returns differs from the canonical
XXH64 digest of the same bytes. -/
theorem c3_abcde_differs_from_canonical :
    xxhash64 abcde abcde.length 0 = some 17716243314014721363 ∧
      XXH64 abcde 0 = 568411279426701291 ∧
      xxhash64 abcde abcde.length 0 ≠ some (XXH64 abcde 0) := by
  decide

/-- C4: with length 12, seed 0 and a buffer of exactly 12 bytes, the 8-byte
load of `xxh64_small` succeeds, the 4-byte load is at offset 16 and fails, and
no digest is returned. -/
theorem c4_small_load_outside_buffer :
    (List.replicate 12 (0 : Byte)).length = 12 ∧
      load64 (List.replicate 12 (0 : Byte)) 0 ≠ none ∧
      load32 (List.replicate 12 (0 : Byte)) 16 = none ∧
      xxh64_small (List.replicate 12 (0 : Byte)) 12 0 = none := by
  decide

/-- C6: two buffers of 20 bytes with the same first 12 bytes (and the same
first 16) get different digests for length 12 and seed 0. -/
theorem c6_digest_depends_on_bytes_past_len :
    (List.replicate 16 (0 : Byte) ++ [1, 0, 0, 0]).take 12 = (List.replicate 20 (0 : Byte)).take 12 ∧
      xxhash64 (List.replicate 20 (0 : Byte)) 12 0 = some 17252927351209727994 ∧
      xxhash64 (List.replicate 16 (0 : Byte) ++ [1, 0, 0, 0]) 12 0 = some 18213209311825829959 ∧
      xxhash64 (List.replicate 20 (0 : Byte)) 12 0 ≠
        xxhash64 (List.replicate 16 (0 : Byte) ++ [1, 0, 0, 0]) 12 0 := by
  decide

/-- C7: on 32 zero bytes under seed 0 the vector variant and the scalar
variant of `xxhash64` return different digests. -/
theorem c7_sse_differs_from_scalar :
    xxhash64 (List.replicate 32 (0 : Byte)) 32 0 = some 17791961111430638837 ∧
      xxhash64_sse (List.replicate 32 (0 : Byte)) 32 0 = some 17558065298921881624 ∧
      xxhash64_sse (List.replicate 32 (0 : Byte)) 32 0 ≠
        xxhash64 (List.replicate 32 (0 : Byte)) 32 0 := by
  decide

/-- C9: on the nine bytes of `"abcdefghi"` under seed 0, `xxh64_small` and the
small-input reference of the specification return different digests: the code
leaves the byte at offset 8 out. -/
theorem c9_small_differs_from_reference :
    xxh64_small abcdefghi 9 0 = some 9440972358994176609 ∧
      xxh64_small_spec abcdefghi 9 0 = 2878261200250560019 ∧
      xxh64_small abcdefghi 9 0 ≠ some (xxh64_small_spec abcdefghi 9 0) ∧
      xxh64_small (abcdefghi.take 8 ++ [0]) 9 0 = xxh64_small abcdefghi 9 0 := by
  decide

/-! ## Loads inside the buffer -/

theorem loadLE_eq_readLE (buf : List Byte) :
    ∀ (width off : Nat), off + width ≤ buf.length →
      loadLE buf off width = some (readLE buf off width) := by
  intro width
  induction width with
  | zero => intro off _; rfl
  | succ w ih =>
    intro off h
    have hlt : off < buf.length := by omega
    have hrec := ih (off + 1) (by omega)
    simp [loadLE, readLE, hrec, List.getD_eq_getElem?_getD, List.getElem?_eq_getElem hlt]

theorem load64_eq_readLE (buf : List Byte) (off : Nat) (h : off + 8 ≤ buf.length) :
    load64 buf off = some (readLE buf off 8) :=
  loadLE_eq_readLE buf 8 off h

theorem load32_eq_readLE (buf : List Byte) (off : Nat) (h : off + 4 ≤ buf.length) :
    load32 buf off = some (readLE buf off 4) :=
  loadLE_eq_readLE buf 4 off h

theorem load8_eq_readLE (buf : List Byte) (off : Nat) (h : off + 1 ≤ buf.length) :
    load8 buf off = some (readLE buf off 1) :=
  loadLE_eq_readLE buf 1 off h

/-! ## The main loop -/

/-- Started at block `j` with the accumulators of the specification, the main
loop ends at offset `32 * (len / 32)` with the accumulators of the
specification after `len / 32` blocks, provided the iteration bound covers
the remaining blocks. -/
theorem mainLoop_eq_specLanes (input : List Byte) (len seed : Nat)
    (hlen : len ≤ input.length) :
    ∀ (fuel j : Nat), 32 * j + 32 ≤ len → len < 32 * j + 32 * fuel + 32 →
      mainLoop input (len - 32) fuel (32 * j) (specLanes input seed j) =
        some (32 * (len / 32), specLanes input seed (len / 32)) := by
  intro fuel
  induction fuel with
  | zero => intro j h1 h2; omega
  | succ f ih =>
    intro j h1 h2
    have e1 := load64_eq_readLE input (32 * j) (by omega)
    have e2 := load64_eq_readLE input (32 * j + 8) (by omega)
    have e3 := load64_eq_readLE input (32 * j + 16) (by omega)
    have e4 := load64_eq_readLE input (32 * j + 24) (by omega)
    simp only [mainLoop, e1, e2, e3, e4]
    by_cases hc : 32 * j + 32 ≤ len - 32
    · rw [if_pos hc]
      have hj : 32 * j + 32 = 32 * (j + 1) := by ring
      have := ih (j + 1) (by omega) (by omega)
      rw [hj]
      exact this
    · rw [if_neg hc]
      have hq : len / 32 = j + 1 := by omega
      rw [hq]
      have hj : 32 * j + 32 = 32 * (j + 1) := by ring
      rw [hj]
      rfl

theorem specMerge_eq_mergeLanes (v : Lanes) : mergeLanes v = specMerge v := rfl

/-! ## The tail -/

theorem tailByteLoop_isSome (input : List Byte) (b_end : Nat) (hb : b_end ≤ input.length) :
    ∀ (fuel p hash_64 : Nat), b_end ≤ p + fuel →
      (tailByteLoop input b_end fuel p hash_64).isSome = true := by
  intro fuel
  induction fuel with
  | zero =>
    intro p hash_64 h
    have : ¬ p < b_end := by omega
    simp [tailByteLoop, this]
  | succ f ih =>
    intro p hash_64 h
    by_cases hp : p < b_end
    · have e := load8_eq_readLE input p (by omega)
      simp only [tailByteLoop, if_pos hp, e]
      exact ih (p + 1) _ (by omega)
    · simp [tailByteLoop, hp]

theorem xxhash64_tail_isSome (input : List Byte) (len p hash_64 : Nat)
    (hb : len ≤ input.length) :
    (xxhash64_tail input len len p hash_64).isSome = true := by
  unfold xxhash64_tail
  by_cases h8 : p + 8 ≤ len
  · have e8 := load64_eq_readLE input p (by omega)
    by_cases h4 : p + 8 + 4 ≤ len
    · have e4 := load32_eq_readLE input (p + 8) (by omega)
      have := tailByteLoop_isSome input len hb (len - (p + 8 + 4)) (p + 8 + 4)
        ((rotl64 (((rotl64 (((hash_64 + len) % U64) ^^^ xxh64_round 0 (readLE input p 8)) 27 *
          XXH_PRIME64_1 * XXH_PRIME64_4) % U64) ^^^ ((readLE input (p + 8) 4 * XXH_PRIME64_1) % U64)) 23 *
          XXH_PRIME64_2 * XXH_PRIME64_3) % U64) (by omega)
      simp only [if_pos h8, e8, if_pos h4, e4]
      revert this
      cases tailByteLoop input len (len - (p + 8 + 4)) (p + 8 + 4) _ <;> simp
    · have := tailByteLoop_isSome input len hb (len - (p + 8)) (p + 8)
        ((rotl64 (((hash_64 + len) % U64) ^^^ xxh64_round 0 (readLE input p 8)) 27 *
          XXH_PRIME64_1 * XXH_PRIME64_4) % U64) (by omega)
      simp only [if_pos h8, e8, if_neg h4]
      revert this
      cases tailByteLoop input len (len - (p + 8)) (p + 8) _ <;> simp
  · by_cases h4 : p + 4 ≤ len
    · have e4 := load32_eq_readLE input p (by omega)
      have := tailByteLoop_isSome input len hb (len - (p + 4)) (p + 4)
        ((rotl64 (((hash_64 + len) % U64) ^^^ ((readLE input p 4 * XXH_PRIME64_1) % U64)) 23 *
          XXH_PRIME64_2 * XXH_PRIME64_3) % U64) (by omega)
      simp only [if_neg h8, if_pos h4, e4]
      revert this
      cases tailByteLoop input len (len - (p + 4)) (p + 4) _ <;> simp
    · have := tailByteLoop_isSome input len hb (len - p) p ((hash_64 + len) % U64) (by omega)
      simp only [if_neg h8, if_neg h4]
      revert this
      cases tailByteLoop input len (len - p) p _ <;> simp

/-! ## The large-input path -/

/-- For length 32 or more, the scalar variant reaches the tail at offset
`32 * (len / 32)` with the merged accumulators of the specification. -/
theorem xxhash64_eq_tail (input : List Byte) (len seed : Nat) (h32 : 32 ≤ len)
    (hb : len ≤ input.length) :
    xxhash64 input len seed =
      xxhash64_tail input len len (32 * (len / 32))
        (specMerge (specLanes input seed (len / 32))) := by
  have hloop := mainLoop_eq_specLanes input len seed hb (len / 32) 0 (by omega) (by omega)
  have hnot : ¬ len < 32 := by omega
  have h0 : specLanes input seed 0 =
      { v1 := (seed + XXH_PRIME64_1 + XXH_PRIME64_2) % U64
        v2 := (seed + XXH_PRIME64_2) % U64
        v3 := seed % U64
        v4 := (seed + (U64 - XXH_PRIME64_1)) % U64 } := rfl
  rw [h0] at hloop
  simp only [xxhash64, if_neg hnot, ge_iff_le, if_pos h32, Nat.zero_add]
  simp only [Nat.mul_zero] at hloop
  rw [hloop]
  rfl

/-- C5: for every length `len ≥ 32`, every seed and every buffer of exactly
`len` bytes, the scalar `xxhash64` returns a digest: none of its loads (the
four 8-byte words of each main-loop iteration, the 8-byte and 4-byte words
and the single bytes of the tail) is outside the buffer, and the iteration
bounds of its loops are never exhausted. -/
theorem c5_large_loads_inside_buffer (input : List Byte) (len seed : Nat)
    (h32 : 32 ≤ len) (hbuf : input.length = len) :
    (xxhash64 input len seed).isSome = true := by
  rw [xxhash64_eq_tail input len seed h32 (by omega)]
  exact xxhash64_tail_isSome input len _ _ (by omega)

theorem c5_large_loads_inside_buffer_witness :
    32 ≤ 33 ∧ (List.replicate 33 (7 : Byte)).length = 33 ∧
      (xxhash64 (List.replicate 33 (7 : Byte)) 33 5).isSome = true :=
  ⟨by decide, by decide,
    c5_large_loads_inside_buffer (List.replicate 33 (7 : Byte)) 33 5 (by decide) (by decide)⟩

/-- C8: for every seed and every buffer, the digest for length 0 is the
avalanche of `seed + PRIME5` modulo `2 ^ 64`; the buffer has no influence, so
no byte of it is read (the empty buffer gives the same digest). -/
theorem c8_empty_input (b : List Byte) (seed : Nat) :
    xxhash64 b 0 seed = some (xxh64_final_mix ((seed + 2870177450012600261) % 2 ^ 64)) := by
  simp [xxhash64, xxh64_small, byteLoop, XXH_PRIME64_5, U64]

/-- C10: for every input whose length `len` is a positive multiple of 32 and
every seed, the scalar `xxhash64` returns `xxh64_final_mix(h + len)` where `h`
is the combine step of the specification (`specMerge`) applied to the lanes of
the specification (`specLanes`: initial values `seed+PRIME1+PRIME2`,
`seed+PRIME2`, `seed`, `seed-PRIME1`, then one `xxh64_round` per lane and
32-byte block with the little-endian words of the block), all modulo `2 ^ 64`. -/
theorem c10_multiple_of_32 (input : List Byte) (len seed : Nat)
    (hpos : 0 < len) (hmul : len % 32 = 0) (hbuf : input.length = len) :
    xxhash64 input len seed =
      some (xxh64_final_mix ((specMerge (specLanes input seed (len / 32)) + len) % U64)) := by
  rw [xxhash64_eq_tail input len seed (by omega) (by omega)]
  have hp : 32 * (len / 32) = len := by omega
  rw [hp]
  have h8 : ¬ len + 8 ≤ len := by omega
  have h4 : ¬ len + 4 ≤ len := by omega
  simp [xxhash64_tail, h8, h4, tailByteLoop]

theorem c10_multiple_of_32_witness :
    0 < 64 ∧ 64 % 32 = 0 ∧ (List.replicate 64 (3 : Byte)).length = 64 ∧
      xxhash64 (List.replicate 64 (3 : Byte)) 64 9 =
        some (xxh64_final_mix
          ((specMerge (specLanes (List.replicate 64 (3 : Byte)) 9 (64 / 32)) + 64) % U64)) :=
  ⟨by decide, by decide, by decide,
    c10_multiple_of_32 (List.replicate 64 (3 : Byte)) 64 9 (by decide) (by decide) (by decide)⟩

/-! ## The tail of the large-input path -/

theorem tailByteLoop_eq_specSmallBytes (input : List Byte) (b_end : Nat)
    (hb : b_end ≤ input.length) :
    ∀ (fuel p hash_64 : Nat), b_end ≤ p + fuel →
      tailByteLoop input b_end fuel p hash_64 =
        some (specSmallBytes input (b_end - p) p hash_64) := by
  intro fuel
  induction fuel with
  | zero =>
    intro p hash_64 h
    have hp : ¬ p < b_end := by omega
    have hz : b_end - p = 0 := by omega
    simp [tailByteLoop, hp, hz, specSmallBytes]
  | succ f ih =>
    intro p hash_64 h
    by_cases hp : p < b_end
    · have e := load8_eq_readLE input p (by omega)
      have hs : b_end - p = (b_end - (p + 1)) + 1 := by omega
      simp only [tailByteLoop, if_pos hp, e]
      rw [ih (p + 1) _ (by omega), hs]
      rfl
    · have hz : b_end - p = 0 := by omega
      simp [tailByteLoop, hp, hz, specSmallBytes]

theorem xxhash64_tail_eq_specTailOnce (input : List Byte) (len p hash_64 : Nat)
    (hb : len ≤ input.length) :
    xxhash64_tail input len len p hash_64 =
      some (xxh64_final_mix (specTailOnce input len p ((hash_64 + len) % U64))) := by
  unfold xxhash64_tail specTailOnce
  by_cases h8 : p + 8 ≤ len
  · have e8 := load64_eq_readLE input p (by omega)
    by_cases h4 : p + 8 + 4 ≤ len
    · have e4 := load32_eq_readLE input (p + 8) (by omega)
      simp only [if_pos h8, e8, if_pos h4, e4]
      rw [tailByteLoop_eq_specSmallBytes input len hb _ _ _ (by omega)]
      rfl
    · simp only [if_pos h8, e8, if_neg h4]
      rw [tailByteLoop_eq_specSmallBytes input len hb _ _ _ (by omega)]
      rfl
  · by_cases h4 : p + 4 ≤ len
    · have e4 := load32_eq_readLE input p (by omega)
      simp only [if_neg h8, if_pos h4, e4]
      rw [tailByteLoop_eq_specSmallBytes input len hb _ _ _ (by omega)]
      rfl
    · simp only [if_neg h8, if_neg h4]
      rw [tailByteLoop_eq_specSmallBytes input len hb _ _ _ (by omega)]

/-- C11, as stated, fails: on 48 bytes of value 1 under seed 0 (16 leftover
bytes) the digest of `xxhash64` is not the one of the tail path with repeated
8-byte steps, which absorbs two 8-byte words. -/
theorem c11_tail_while_refuted :
    (List.replicate 48 (1 : Byte)).length = 48 ∧
      xxhash64 (List.replicate 48 (1 : Byte)) 48 0 ≠
        some (xxh64_final_mix (specTailWhile (List.replicate 48 (1 : Byte)) 48 (32 * (48 / 32))
          ((specMerge (specLanes (List.replicate 48 (1 : Byte)) 0 (48 / 32)) + 48) % U64))) := by
  decide

/-- C11, amended: for every input of length `len ≥ 32` and every seed, the
digest is `xxh64_final_mix` of the tail path with single steps
(`specTailOnce`) started at offset `32 * (len / 32)` from the combined hash
plus `len`: one 8-byte step if at least 8 bytes remain, then one 4-byte step
if at least 4 bytes remain, then one step per remaining byte. -/
theorem c11_tail_once (input : List Byte) (len seed : Nat)
    (h32 : 32 ≤ len) (hbuf : input.length = len) :
    xxhash64 input len seed =
      some (xxh64_final_mix (specTailOnce input len (32 * (len / 32))
        ((specMerge (specLanes input seed (len / 32)) + len) % U64))) := by
  rw [xxhash64_eq_tail input len seed h32 (by omega)]
  exact xxhash64_tail_eq_specTailOnce input len _ _ (by omega)

theorem c11_tail_once_witness :
    32 ≤ 48 ∧ (List.replicate 48 (1 : Byte)).length = 48 ∧
      xxhash64 (List.replicate 48 (1 : Byte)) 48 0 =
        some (xxh64_final_mix (specTailOnce (List.replicate 48 (1 : Byte)) 48 (32 * (48 / 32))
          ((specMerge (specLanes (List.replicate 48 (1 : Byte)) 0 (48 / 32)) + 48) % U64))) :=
  ⟨by decide, by decide,
    c11_tail_once (List.replicate 48 (1 : Byte)) 48 0 (by decide) (by decide)⟩

/-! ## Iterations of the main loop -/

theorem mainLoop_none_of_fuel_lt (input : List Byte) (len : Nat) (hlen : len ≤ input.length) :
    ∀ (fuel j : Nat) (v : Lanes), 32 * j + 32 * fuel + 32 ≤ len →
      mainLoop input (len - 32) fuel (32 * j) v = none := by
  intro fuel
  induction fuel with
  | zero => intro j v _; rfl
  | succ f ih =>
    intro j v h
    have e1 := load64_eq_readLE input (32 * j) (by omega)
    have e2 := load64_eq_readLE input (32 * j + 8) (by omega)
    have e3 := load64_eq_readLE input (32 * j + 16) (by omega)
    have e4 := load64_eq_readLE input (32 * j + 24) (by omega)
    have hc : 32 * j + 32 ≤ len - 32 := by omega
    have hj : 32 * j + 32 = 32 * (j + 1) := by ring
    simp only [mainLoop, e1, e2, e3, e4, if_pos hc]
    rw [hj]
    exact ih (j + 1) _ (by omega)

/-- C12: for every length `len ≥ 32` and every buffer of `len` bytes, the main
loop needs exactly `len / 32` iterations: with an iteration bound below
`len / 32` it does not finish, with any other bound it ends at offset
`32 * (len / 32)` having absorbed the consecutive 32-byte blocks
`0 .. len / 32 - 1`; `len % 32`, which is below 32, bytes are left. -/
theorem c12_main_loop_iterations (input : List Byte) (len seed : Nat)
    (h32 : 32 ≤ len) (hbuf : input.length = len) :
    (∀ fuel : Nat, mainLoop input (len - 32) fuel 0 (specLanesInit seed) =
        if fuel < len / 32 then none
        else some (32 * (len / 32), specLanes input seed (len / 32))) ∧
      len - 32 * (len / 32) = len % 32 ∧ len % 32 < 32 := by
  refine ⟨?_, by omega, by omega⟩
  intro fuel
  by_cases hf : fuel < len / 32
  · rw [if_pos hf]
    have := mainLoop_none_of_fuel_lt input len (by omega) fuel 0 (specLanesInit seed) (by omega)
    simpa using this
  · rw [if_neg hf]
    have := mainLoop_eq_specLanes input len seed (by omega) fuel 0 (by omega) (by omega)
    simpa [specLanes] using this

theorem c12_main_loop_iterations_witness :
    32 ≤ 70 ∧ (List.replicate 70 (2 : Byte)).length = 70 ∧
      ((∀ fuel : Nat,
          mainLoop (List.replicate 70 (2 : Byte)) (70 - 32) fuel 0 (specLanesInit 1) =
            if fuel < 70 / 32 then none
            else some (32 * (70 / 32), specLanes (List.replicate 70 (2 : Byte)) 1 (70 / 32))) ∧
        70 - 32 * (70 / 32) = 70 % 32 ∧ 70 % 32 < 32) :=
  ⟨by decide, by decide,
    c12_main_loop_iterations (List.replicate 70 (2 : Byte)) 70 1 (by decide) (by decide)⟩

/-! ## The vector round -/

/-- C13: on the registers holding `(0, 0)` and `(1, 1)`, `xxh_round_sse` does
not yield `(xxh64_round 0 1, xxh64_round 0 1)`; and `xxh_mul_epi64` applied to
the register holding `(1, 1)` and to `PRIME1` yields `PRIME1 % 2 ^ 32` in each
lane, not `PRIME1`. -/
theorem c13_round_sse_differs_from_scalar :
    xxh_round_sse { lo := 0, hi := 0 } { lo := 1, hi := 1 } =
        { lo := 4825014653870407680, hi := 4825014653870407680 } ∧
      xxh64_round 0 1 = 9155312661752487122 ∧
      xxh_round_sse { lo := 0, hi := 0 } { lo := 1, hi := 1 } ≠
        { lo := xxh64_round 0 1, hi := xxh64_round 0 1 } ∧
      xxh_mul_epi64 { lo := 1, hi := 1 } XXH_PRIME64_1 =
        { lo := XXH_PRIME64_1 % 2 ^ 32, hi := XXH_PRIME64_1 % 2 ^ 32 } ∧
      xxh_mul_epi64 { lo := 1, hi := 1 } XXH_PRIME64_1 ≠
        { lo := (1 * XXH_PRIME64_1) % 2 ^ 64, hi := (1 * XXH_PRIME64_1) % 2 ^ 64 } := by
  decide

/-! ## Bytes that the small-input path never reads -/

theorem loadLE_congr (b1 b2 : List Byte) :
    ∀ (width off : Nat), (∀ i, off ≤ i → i < off + width → b1[i]? = b2[i]?) →
      loadLE b1 off width = loadLE b2 off width := by
  intro width
  induction width with
  | zero => intro off _; rfl
  | succ w ih =>
    intro off h
    have h0 := h off (by omega) (by omega)
    have hrec := ih (off + 1) (fun i hi1 hi2 => h i (by omega) (by omega))
    simp only [loadLE, h0, hrec]

theorem byteLoop_congr (b1 b2 : List Byte) (len p0 : Nat)
    (h : ∀ i, p0 ≤ i → b1[i]? = b2[i]?) :
    ∀ (fuel p hash : Nat), p0 ≤ p →
      byteLoop b1 len fuel p hash = byteLoop b2 len fuel p hash := by
  intro fuel
  induction fuel with
  | zero => intro p hash _; rfl
  | succ f ih =>
    intro p hash hp
    have e : load8 b1 p = load8 b2 p :=
      loadLE_congr b1 b2 1 p (fun i hi1 _ => h i (by omega))
    simp only [byteLoop, e]
    split
    · cases load8 b2 p with
      | none => rfl
      | some b => exact ih (p + 1) _ (by omega)
    · rfl

/-- C14: for every seed and every length `n` with `8 ≤ n < 32`, two buffers
that are equal at every offset outside `[8, 16)` get the same result from
`xxh64_small`: the bytes at offsets 8 to 15 have no influence on the digest. -/
theorem c14_small_ignores_bytes_8_to_15 (b1 b2 : List Byte) (n seed : Nat)
    (h8 : 8 ≤ n) (_hn : n < 32)
    (heq : ∀ i : Nat, (i < 8 ∨ 16 ≤ i) → b1[i]? = b2[i]?) :
    xxh64_small b1 n seed = xxh64_small b2 n seed := by
  have e0 : load64 b1 0 = load64 b2 0 :=
    loadLE_congr b1 b2 8 0 (fun i _ hi => heq i (by omega))
  have e16 : load32 b1 (0 + 8 + 8) = load32 b2 (0 + 8 + 8) :=
    loadLE_congr b1 b2 4 16 (fun i hi _ => heq i (by omega))
  have hloop : ∀ (fuel p hash : Nat), 16 ≤ p →
      byteLoop b1 n fuel p hash = byteLoop b2 n fuel p hash :=
    byteLoop_congr b1 b2 n 16 (fun i hi => heq i (Or.inr hi))
  have h8' : n ≥ 8 := h8
  simp only [xxh64_small, if_pos h8', e0]
  cases load64 b2 0 with
  | none => rfl
  | some k1 =>
    simp only [e16]
    by_cases h4 : n &&& 4 ≠ 0
    · simp only [if_pos h4]
      cases load32 b2 (0 + 8 + 8) with
      | none => rfl
      | some k2 => simp only [hloop _ (0 + 8 + 8 + 4 + 4) _ (by omega)]
    · simp only [if_neg h4, hloop _ (0 + 8 + 8) _ (by omega)]

theorem c14_small_ignores_bytes_8_to_15_witness :
    8 ≤ 9 ∧ 9 < 32 ∧
      xxh64_small abcdefghi 9 3 = xxh64_small (abcdefghi.take 8 ++ [0]) 9 3 :=
  ⟨by decide, by decide,
    c14_small_ignores_bytes_8_to_15 abcdefghi (abcdefghi.take 8 ++ [0]) 9 3
      (by decide) (by decide) (by
        intro i hi
        rcases hi with hi | hi
        · have : i = 0 ∨ i = 1 ∨ i = 2 ∨ i = 3 ∨ i = 4 ∨ i = 5 ∨ i = 6 ∨ i = 7 := by omega
          rcases this with h | h | h | h | h | h | h | h <;> subst h <;> rfl
        · have h1 : abcdefghi.length ≤ i := by simp [abcdefghi]; omega
          have h2 : (abcdefghi.take 8 ++ [0]).length ≤ i := by simp [abcdefghi]; omega
          rw [List.getElem?_eq_none h1, List.getElem?_eq_none h2])⟩

/-! ## Bit-level facts -/

theorem testBit_eq_false_of_lt_U64 (v i : Nat) (hv : v < 2 ^ 64) (hi : 64 ≤ i) :
    v.testBit i = false :=
  Nat.testBit_lt_two_pow (lt_of_lt_of_le hv (Nat.pow_le_pow_right (by decide) hi))

theorem rotl64_lt (v s : Nat) (hv : v < 2 ^ 64) : rotl64 v s < 2 ^ 64 := by
  unfold rotl64
  apply Nat.or_lt_two_pow
  · exact Nat.mod_lt _ (by decide)
  · rw [Nat.shiftRight_eq_div_pow]
    exact lt_of_le_of_lt (Nat.div_le_self _ _) hv

/-- Bit `j` of `rotl64 v s` is bit `j - s` of `v`, the index taken modulo 64. -/
theorem testBit_rotl64 (v s j : Nat) (hv : v < 2 ^ 64) (hs1 : 1 ≤ s) (hs2 : s ≤ 63)
    (hj : j < 64) :
    (rotl64 v s).testBit j = v.testBit ((j + 64 - s) % 64) := by
  unfold rotl64 U64
  rw [Nat.testBit_or, Nat.testBit_mod_two_pow, Nat.testBit_shiftLeft, Nat.testBit_shiftRight]
  by_cases hjs : s ≤ j
  · have h1 : (j + 64 - s) % 64 = j - s := by omega
    have h2 : v.testBit (64 - s + j) = false :=
      testBit_eq_false_of_lt_U64 v _ hv (by omega)
    simp [h1, h2, hj, hjs]
  · have h1 : (j + 64 - s) % 64 = 64 - s + j := by omega
    simp [h1, hjs]

theorem rotl64_rotl64 (v s : Nat) (hv : v < 2 ^ 64) (hs1 : 1 ≤ s) (hs2 : s ≤ 63) :
    rotl64 (rotl64 v s) (64 - s) = v := by
  apply Nat.eq_of_testBit_eq
  intro j
  by_cases hj : j < 64
  · rw [testBit_rotl64 (rotl64 v s) (64 - s) j (rotl64_lt v s hv) (by omega) (by omega) hj]
    rw [testBit_rotl64 v s _ hv hs1 hs2 (Nat.mod_lt _ (by decide))]
    congr 1
    omega
  · rw [testBit_eq_false_of_lt_U64 _ j (rotl64_lt _ _ (rotl64_lt v s hv)) (by omega),
      testBit_eq_false_of_lt_U64 v j hv (by omega)]

theorem rotl64_injective (a b s : Nat) (ha : a < 2 ^ 64) (hb : b < 2 ^ 64)
    (hs1 : 1 ≤ s) (hs2 : s ≤ 63) (h : rotl64 a s = rotl64 b s) : a = b := by
  rw [← rotl64_rotl64 a s ha hs1 hs2, ← rotl64_rotl64 b s hb hs1 hs2, h]

/-- The map `x ↦ x ^ (x >> k)` is injective for every shift `k ≥ 1`. -/
theorem xorShift_injective (k a b : Nat) (hk : 1 ≤ k)
    (h : a ^^^ (a >>> k) = b ^^^ (b >>> k)) : a = b := by
  have ha : a < 2 ^ (a + b) :=
    lt_of_lt_of_le a.lt_two_pow (Nat.pow_le_pow_right (by decide) (by omega))
  have hb : b < 2 ^ (a + b) :=
    lt_of_lt_of_le b.lt_two_pow (Nat.pow_le_pow_right (by decide) (by omega))
  have key : ∀ (d i : Nat), a + b ≤ i + d → a.testBit i = b.testBit i := by
    intro d
    induction d with
    | zero =>
      intro i hi
      have hi0 : a + b ≤ i := by omega
      rw [Nat.testBit_lt_two_pow (lt_of_lt_of_le ha (Nat.pow_le_pow_right (by decide) hi0)),
        Nat.testBit_lt_two_pow (lt_of_lt_of_le hb (Nat.pow_le_pow_right (by decide) hi0))]
    | succ d ih =>
      intro i hi
      have hbit := congrArg (fun x => Nat.testBit x i) h
      simp only [Nat.testBit_xor, Nat.testBit_shiftRight] at hbit
      rw [ih (k + i) (by omega)] at hbit
      revert hbit
      cases a.testBit i <;> cases b.testBit i <;> cases b.testBit (k + i) <;> simp
  exact Nat.eq_of_testBit_eq (fun i => key (a + b) i (by omega))

/-- Multiplication by a constant that has an inverse modulo `2 ^ 64` is
injective on 64-bit values. -/
theorem mul_mod_U64_injective (P Pinv a b : Nat) (hinv : (P * Pinv) % U64 = 1)
    (ha : a < U64) (hb : b < U64) (h : (a * P) % U64 = (b * P) % U64) : a = b := by
  have key : ∀ x : Nat, x < U64 → ((x * P) % U64 * Pinv) % U64 = x := by
    intro x hx
    rw [Nat.mod_mul_mod, Nat.mul_assoc, Nat.mul_mod, hinv, Nat.mul_one, Nat.mod_mod,
      Nat.mod_eq_of_lt hx]
  rw [← key a ha, ← key b hb, h]

theorem mulAdd_mod_U64_injective (P Pinv c a b : Nat) (hinv : (P * Pinv) % U64 = 1)
    (ha : a < U64) (hb : b < U64) (h : (a * P + c) % U64 = (b * P + c) % U64) : a = b :=
  mul_mod_U64_injective P Pinv a b hinv ha hb (Nat.ModEq.add_right_cancel' c h)

theorem PRIME1_inv : (XXH_PRIME64_1 * 614540362697595703) % U64 = 1 := by decide

theorem PRIME2_inv : (XXH_PRIME64_2 * 839798700976720815) % U64 = 1 := by decide

theorem PRIME3_inv : (XXH_PRIME64_3 * 16855272203555305545) % U64 = 1 := by decide

/-- C18: for every 64-bit value `v` and every shift `s` with `1 ≤ s ≤ 63`,
`rotl64 v s` is the 64-bit left rotation of `v` by `s`: bit `(i + s) % 64` of
the result is bit `i` of `v` for every `i` in `0 .. 63`, the result is a
64-bit value, and `rotl64 (rotl64 v s) (64 - s) = v`. -/
theorem c18_rotl64_rotation (v s : Nat) (hv : v < 2 ^ 64) (hs1 : 1 ≤ s) (hs2 : s ≤ 63) :
    (∀ i : Nat, i < 64 → (rotl64 v s).testBit ((i + s) % 64) = v.testBit i) ∧
      rotl64 v s < 2 ^ 64 ∧ rotl64 (rotl64 v s) (64 - s) = v := by
  refine ⟨?_, rotl64_lt v s hv, rotl64_rotl64 v s hv hs1 hs2⟩
  intro i hi
  rw [testBit_rotl64 v s _ hv hs1 hs2 (Nat.mod_lt _ (by decide))]
  congr 1
  omega

theorem c18_rotl64_rotation_witness :
    0x8000000000000001 < 2 ^ 64 ∧ 1 ≤ 5 ∧ 5 ≤ 63 ∧
      ((∀ i : Nat, i < 64 →
          (rotl64 0x8000000000000001 5).testBit ((i + 5) % 64) =
            (0x8000000000000001 : Nat).testBit i) ∧
        rotl64 0x8000000000000001 5 < 2 ^ 64 ∧
        rotl64 (rotl64 0x8000000000000001 5) (64 - 5) = 0x8000000000000001) :=
  ⟨by decide, by decide, by decide,
    c18_rotl64_rotation 0x8000000000000001 5 (by decide) (by decide) (by decide)⟩

/-! ## The avalanche -/

theorem xorShift_lt (x k : Nat) (hx : x < 2 ^ 64) : x ^^^ (x >>> k) < 2 ^ 64 := by
  apply Nat.xor_lt_two_pow hx
  rw [Nat.shiftRight_eq_div_pow]
  exact lt_of_le_of_lt (Nat.div_le_self _ _) hx

theorem xxh64_final_mix_lt (h : Nat) : xxh64_final_mix h < 2 ^ 64 := by
  simp only [xxh64_final_mix]
  exact xorShift_lt _ 32 (Nat.mod_lt _ (by decide))

theorem xxh64_final_mix_injective (a b : Nat) (ha : a < 2 ^ 64) (hb : b < 2 ^ 64)
    (h : xxh64_final_mix a = xxh64_final_mix b) : a = b := by
  simp only [xxh64_final_mix] at h
  have h4 := xorShift_injective 32 _ _ (by decide) h
  have h3 := mul_mod_U64_injective XXH_PRIME64_3 _ _ _ PRIME3_inv
    (xorShift_lt _ 29 (Nat.mod_lt _ (by decide))) (xorShift_lt _ 29 (Nat.mod_lt _ (by decide))) h4
  have h2 := xorShift_injective 29 _ _ (by decide) h3
  have h1 := mul_mod_U64_injective XXH_PRIME64_2 _ _ _ PRIME2_inv
    (xorShift_lt a 33 ha) (xorShift_lt b 33 hb) h2
  exact xorShift_injective 33 a b (by decide) h1

/-- Every 64-bit value is the avalanche of a 64-bit value. -/
theorem xxh64_final_mix_surjective (y : Nat) (hy : y < 2 ^ 64) :
    ∃ h : Nat, h < 2 ^ 64 ∧ xxh64_final_mix h = y := by
  have hinj : Function.Injective
      (fun h : Fin (2 ^ 64) => (⟨xxh64_final_mix h.val, xxh64_final_mix_lt h.val⟩ : Fin (2 ^ 64))) := by
    intro a b hab
    exact Fin.ext (xxh64_final_mix_injective a.val b.val a.isLt b.isLt (congrArg Fin.val hab))
  obtain ⟨x, hx⟩ := (Finite.injective_iff_surjective.1 hinj) ⟨y, hy⟩
  exact ⟨x.val, x.isLt, congrArg Fin.val hx⟩

/-- C17: `xxh64_final_mix` is injective on 64-bit values: for all 64-bit `h1`
and `h2`, `xxh64_final_mix h1 = xxh64_final_mix h2` implies `h1 = h2`. -/
theorem c17_final_mix_injective (h1 h2 : Nat) (hh1 : h1 < 2 ^ 64) (hh2 : h2 < 2 ^ 64)
    (heq : xxh64_final_mix h1 = xxh64_final_mix h2) : h1 = h2 :=
  xxh64_final_mix_injective h1 h2 hh1 hh2 heq

theorem c17_final_mix_injective_witness :
    (12345 : Nat) < 2 ^ 64 ∧ xxh64_final_mix 12345 = xxh64_final_mix 12345 ∧
      (12345 : Nat) = 12345 :=
  ⟨by decide, rfl, c17_final_mix_injective 12345 12345 (by decide) (by decide) rfl⟩

/-! ## Injectivity of the mixing steps -/

/-- The step `hash ↦ (rotl64 (hash ^ c) r * P + d) mod 2 ^ 64` is injective on
64-bit values when `P` has an inverse modulo `2 ^ 64`. -/
theorem mixStep_injective (P Pinv c d r a b : Nat) (hinv : (P * Pinv) % U64 = 1)
    (hr1 : 1 ≤ r) (hr2 : r ≤ 63) (hc : c < 2 ^ 64) (ha : a < 2 ^ 64) (hb : b < 2 ^ 64)
    (h : (rotl64 (a ^^^ c) r * P + d) % U64 = (rotl64 (b ^^^ c) r * P + d) % U64) : a = b := by
  have hac : a ^^^ c < 2 ^ 64 := Nat.xor_lt_two_pow ha hc
  have hbc : b ^^^ c < 2 ^ 64 := Nat.xor_lt_two_pow hb hc
  have hrot := mulAdd_mod_U64_injective P Pinv d _ _ hinv
    (rotl64_lt _ r hac) (rotl64_lt _ r hbc) h
  exact Nat.xor_left_inj.1 (rotl64_injective _ _ r hac hbc hr1 hr2 hrot)

theorem byteStep_lt (hash b : Nat) : byteStep hash b < 2 ^ 64 :=
  Nat.mod_lt _ (by decide)

theorem byteStep_injective (a b k : Nat) (ha : a < 2 ^ 64) (hb : b < 2 ^ 64)
    (h : byteStep a k = byteStep b k) : a = b := by
  simp only [byteStep] at h
  have hc : (k * XXH_PRIME64_5) % U64 < 2 ^ 64 := Nat.mod_lt _ (by decide)
  have hac : a ^^^ (k * XXH_PRIME64_5) % U64 < 2 ^ 64 := Nat.xor_lt_two_pow ha hc
  have hbc : b ^^^ (k * XXH_PRIME64_5) % U64 < 2 ^ 64 := Nat.xor_lt_two_pow hb hc
  have hrot := mul_mod_U64_injective XXH_PRIME64_1 _ _ _ PRIME1_inv
    (rotl64_lt _ 11 hac) (rotl64_lt _ 11 hbc) h
  exact Nat.xor_left_inj.1 (rotl64_injective _ _ 11 hac hbc (by decide) (by decide) hrot)

theorem byteLoop_lt (input : List Byte) (len : Nat) :
    ∀ (fuel p a d : Nat), a < 2 ^ 64 → byteLoop input len fuel p a = some d → d < 2 ^ 64 := by
  intro fuel
  induction fuel with
  | zero =>
    intro p a d ha h
    by_cases hp : p < len
    · simp [byteLoop, hp] at h
    · simp only [byteLoop, if_neg hp, Option.some.injEq] at h
      omega
  | succ f ih =>
    intro p a d ha h
    by_cases hp : p < len
    · simp only [byteLoop, if_pos hp] at h
      cases hl : load8 input p with
      | none => simp [hl] at h
      | some k =>
        simp only [hl] at h
        exact ih _ _ _ (byteStep_lt a k) h
    · simp only [byteLoop, if_neg hp, Option.some.injEq] at h
      omega

theorem byteLoop_hash_injective (input : List Byte) (len : Nat) :
    ∀ (fuel p a b d : Nat), a < 2 ^ 64 → b < 2 ^ 64 →
      byteLoop input len fuel p a = some d → byteLoop input len fuel p b = some d → a = b := by
  intro fuel
  induction fuel with
  | zero =>
    intro p a b d _ _ h1 h2
    by_cases hp : p < len
    · simp [byteLoop, hp] at h1
    · simp only [byteLoop, if_neg hp, Option.some.injEq] at h1 h2
      omega
  | succ f ih =>
    intro p a b d ha hb h1 h2
    by_cases hp : p < len
    · simp only [byteLoop, if_pos hp] at h1 h2
      cases hl : load8 input p with
      | none => simp [hl] at h1
      | some k =>
        simp only [hl] at h1 h2
        exact byteStep_injective a b k ha hb
          (ih _ _ _ d (byteStep_lt a k) (byteStep_lt b k) h1 h2)
    · simp only [byteLoop, if_neg hp, Option.some.injEq] at h1 h2
      omega

/-- Two runs of the byte loop and the avalanche from the same cursor that give
the same digest started from the same hash. -/
theorem smallFinish_injective (input : List Byte) (len fuel p a b x y : Nat)
    (ha : a < 2 ^ 64) (hb : b < 2 ^ 64)
    (hx : byteLoop input len fuel p a = some x) (hy : byteLoop input len fuel p b = some y)
    (h : xxh64_final_mix x = xxh64_final_mix y) : a = b := by
  have hxy : x = y := xxh64_final_mix_injective x y
    (byteLoop_lt input len fuel p a x ha hx) (byteLoop_lt input len fuel p b y hb hy) h
  rw [← hxy] at hy
  exact byteLoop_hash_injective input len fuel p a b x ha hb hx hy

theorem seedInit_injective (c s1 s2 : Nat) (h1 : s1 < 2 ^ 64) (h2 : s2 < 2 ^ 64)
    (h : (s1 + c) % U64 = (s2 + c) % U64) : s1 = s2 := by
  have := Nat.ModEq.add_right_cancel' c h
  unfold Nat.ModEq at this
  rwa [Nat.mod_eq_of_lt (show s1 < U64 from h1), Nat.mod_eq_of_lt (show s2 < U64 from h2)] at this

/-! ## The seed on the small-input path -/

theorem xxh64_round_lt (acc input : Nat) : xxh64_round acc input < 2 ^ 64 :=
  Nat.mod_lt _ (by decide)

theorem xxh64_small_seed_injective (input : List Byte) (n s1 s2 : Nat)
    (h1 : s1 < 2 ^ 64) (h2 : s2 < 2 ^ 64)
    (hsome : (xxh64_small input n s1).isSome = true)
    (heq : xxh64_small input n s1 = xxh64_small input n s2) : s1 = s2 := by
  have hinit : (s1 + XXH_PRIME64_5 + n) % U64 = (s2 + XXH_PRIME64_5 + n) % U64 → s1 = s2 := by
    intro h
    rw [Nat.add_assoc, Nat.add_assoc] at h
    exact seedInit_injective _ s1 s2 h1 h2 h
  have hA : (s1 + XXH_PRIME64_5 + n) % U64 < 2 ^ 64 := Nat.mod_lt _ (by decide)
  have hB : (s2 + XXH_PRIME64_5 + n) % U64 < 2 ^ 64 := Nat.mod_lt _ (by decide)
  simp only [xxh64_small] at heq hsome
  by_cases h8 : n ≥ 8
  · simp only [if_pos h8] at heq hsome
    cases hl : load64 input 0 with
    | none => simp [hl] at hsome
    | some k1 =>
      simp only [hl] at heq hsome
      by_cases h4 : n &&& 4 ≠ 0
      · simp only [if_pos h4] at heq hsome
        cases hl4 : load32 input (0 + 8 + 8) with
        | none => simp [hl4] at hsome
        | some k2 =>
          simp only [hl4] at heq hsome
          generalize hg1 : byteLoop input n _ _ _ = o1 at hsome heq
          generalize hg2 : byteLoop input n _ _ _ = o2 at heq
          cases o1 with
          | none => simp at hsome
          | some x =>
            cases o2 with
            | none => simp at heq
            | some y =>
              simp only [Option.some.injEq] at heq
              have hAB := smallFinish_injective input n _ _ _ _ x y
                (Nat.mod_lt _ (by decide)) (Nat.mod_lt _ (by decide)) hg1 hg2 heq
              have h4s := mixStep_injective XXH_PRIME64_2 _ _ XXH_PRIME64_3 23 _ _ PRIME2_inv
                (by decide) (by decide) (Nat.mod_lt _ (by decide)) (Nat.mod_lt _ (by decide))
                (Nat.mod_lt _ (by decide)) hAB
              have h8s := mixStep_injective XXH_PRIME64_1 _ _ XXH_PRIME64_4 27 _ _ PRIME1_inv
                (by decide) (by decide) (xxh64_round_lt 0 k1) hA hB h4s
              exact hinit h8s
      · simp only [if_neg h4] at heq hsome
        generalize hg1 : byteLoop input n _ _ _ = o1 at hsome heq
        generalize hg2 : byteLoop input n _ _ _ = o2 at heq
        cases o1 with
        | none => simp at hsome
        | some x =>
          cases o2 with
          | none => simp at heq
          | some y =>
            simp only [Option.some.injEq] at heq
            have hAB := smallFinish_injective input n _ _ _ _ x y
              (Nat.mod_lt _ (by decide)) (Nat.mod_lt _ (by decide)) hg1 hg2 heq
            have h8s := mixStep_injective XXH_PRIME64_1 _ _ XXH_PRIME64_4 27 _ _ PRIME1_inv
              (by decide) (by decide) (xxh64_round_lt 0 k1) hA hB hAB
            exact hinit h8s
  · simp only [if_neg h8] at heq hsome
    by_cases h4 : n &&& 4 ≠ 0
    · simp only [if_pos h4] at heq hsome
      cases hl4 : load32 input 0 with
      | none => simp [hl4] at hsome
      | some k2 =>
        simp only [hl4] at heq hsome
        generalize hg1 : byteLoop input n _ _ _ = o1 at hsome heq
        generalize hg2 : byteLoop input n _ _ _ = o2 at heq
        cases o1 with
        | none => simp at hsome
        | some x =>
          cases o2 with
          | none => simp at heq
          | some y =>
            simp only [Option.some.injEq] at heq
            have hAB := smallFinish_injective input n _ _ _ _ x y
              (Nat.mod_lt _ (by decide)) (Nat.mod_lt _ (by decide)) hg1 hg2 heq
            have h4s := mixStep_injective XXH_PRIME64_2 _ _ XXH_PRIME64_3 23 _ _ PRIME2_inv
              (by decide) (by decide) (Nat.mod_lt _ (by decide)) hA hB hAB
            exact hinit h4s
    · simp only [if_neg h4] at heq hsome
      generalize hg1 : byteLoop input n _ _ _ = o1 at hsome heq
      generalize hg2 : byteLoop input n _ _ _ = o2 at heq
      cases o1 with
      | none => simp at hsome
      | some x =>
        cases o2 with
        | none => simp at heq
        | some y =>
          simp only [Option.some.injEq] at heq
          have hAB := smallFinish_injective input n _ _ _ _ x y
            (Nat.mod_lt _ (by decide)) (Nat.mod_lt _ (by decide)) hg1 hg2 heq
          exact hinit hAB

/-- C15: for every buffer and every length `n < 32` for which all loads
succeed (a digest is returned), two distinct 64-bit seeds give two distinct
digests of the same input. -/
theorem c15_small_seed_injective (input : List Byte) (n s1 s2 : Nat) (hn : n < 32)
    (h1 : s1 < 2 ^ 64) (h2 : s2 < 2 ^ 64)
    (hloads : (xxhash64 input n s1).isSome = true) (hne : s1 ≠ s2) :
    xxhash64 input n s1 ≠ xxhash64 input n s2 := by
  intro heq
  simp only [xxhash64, if_pos hn] at heq hloads
  exact hne (xxh64_small_seed_injective input n s1 s2 h1 h2 hloads heq)

theorem c15_small_seed_injective_witness :
    3 < 32 ∧ (0 : Nat) < 2 ^ 64 ∧ (1 : Nat) < 2 ^ 64 ∧ (xxhash64 abc 3 0).isSome = true ∧
      (0 : Nat) ≠ 1 ∧ xxhash64 abc 3 0 ≠ xxhash64 abc 3 1 :=
  ⟨by decide, by decide, by decide, by decide, by decide,
    c15_small_seed_injective abc 3 0 1 (by decide) (by decide) (by decide) (by decide)
      (by decide)⟩

/-! ## Inputs of length 8 and of length 4 -/

theorem readLE_lt (b : List Byte) : ∀ (width off : Nat), readLE b off width < 256 ^ width := by
  intro width
  induction width with
  | zero => intro off; simp [readLE]
  | succ w ih =>
    intro off
    have hr := ih (off + 1)
    have hx : (b.getD off 0).val < 256 := (b.getD off 0).isLt
    simp only [readLE, Nat.pow_succ]
    omega

/-- The little-endian value of `width` bytes determines these bytes. -/
theorem readLE_injective (b1 b2 : List Byte) :
    ∀ (width off : Nat), readLE b1 off width = readLE b2 off width →
      ∀ i : Nat, i < width → b1.getD (off + i) 0 = b2.getD (off + i) 0 := by
  intro width
  induction width with
  | zero => intro off _ i hi; omega
  | succ w ih =>
    intro off h i hi
    simp only [readLE] at h
    have hx1 : (b1.getD off 0).val < 256 := (b1.getD off 0).isLt
    have hx2 : (b2.getD off 0).val < 256 := (b2.getD off 0).isLt
    have hhead : (b1.getD off 0).val = (b2.getD off 0).val := by omega
    have htail : readLE b1 (off + 1) w = readLE b2 (off + 1) w := by omega
    cases i with
    | zero => exact Fin.ext hhead
    | succ j =>
      have := ih (off + 1) htail j (by omega)
      have e : off + (j + 1) = off + 1 + j := by omega
      rw [e]
      exact this

theorem eq_of_readLE_eq (b1 b2 : List Byte) (width : Nat) (hl1 : b1.length = width)
    (hl2 : b2.length = width) (h : readLE b1 0 width = readLE b2 0 width) : b1 = b2 := by
  apply List.ext_getElem (by omega)
  intro i hi1 hi2
  have := readLE_injective b1 b2 width 0 h i (by omega)
  simpa [List.getD_eq_getElem?_getD, List.getElem?_eq_getElem hi1,
    List.getElem?_eq_getElem hi2] using this

theorem xxh64_round_zero_injective (a b : Nat) (ha : a < 2 ^ 64) (hb : b < 2 ^ 64)
    (h : xxh64_round 0 a = xxh64_round 0 b) : a = b := by
  simp only [xxh64_round, Nat.zero_add] at h
  have hrot := mul_mod_U64_injective XXH_PRIME64_1 _ _ _ PRIME1_inv
    (rotl64_lt _ 31 (Nat.mod_lt _ (by decide))) (rotl64_lt _ 31 (Nat.mod_lt _ (by decide))) h
  have hmul := rotl64_injective _ _ 31 (Nat.mod_lt _ (by decide)) (Nat.mod_lt _ (by decide))
    (by decide) (by decide) hrot
  exact mul_mod_U64_injective XXH_PRIME64_2 _ a b PRIME2_inv ha hb hmul

/-- The digest of an input of exactly 8 bytes. -/
theorem xxhash64_len8 (b : List Byte) (seed : Nat) (hl : b.length = 8) :
    xxhash64 b 8 seed =
      some (xxh64_final_mix
        ((rotl64 (((seed + XXH_PRIME64_5 + 8) % U64) ^^^ xxh64_round 0 (readLE b 0 8)) 27 *
          XXH_PRIME64_1 + XXH_PRIME64_4) % U64)) := by
  have e := load64_eq_readLE b 0 (by omega)
  have h32 : (8 : Nat) < 32 := by decide
  have h8 : (8 : Nat) ≥ 8 := by decide
  have h4 : ¬ ((8 : Nat) &&& 4 ≠ 0) := by decide
  simp only [xxhash64, if_pos h32, xxh64_small, if_pos h8, e, if_neg h4]
  rfl

/-- The digest of an input of exactly 4 bytes. -/
theorem xxhash64_len4 (b : List Byte) (seed : Nat) (hl : b.length = 4) :
    xxhash64 b 4 seed =
      some (xxh64_final_mix
        ((rotl64 (((seed + XXH_PRIME64_5 + 4) % U64) ^^^
          ((readLE b 0 4 * XXH_PRIME64_1) % U64)) 23 * XXH_PRIME64_2 + XXH_PRIME64_3) % U64)) := by
  have e := load32_eq_readLE b 0 (by omega)
  have h32 : (4 : Nat) < 32 := by decide
  have h8 : ¬ ((4 : Nat) ≥ 8) := by decide
  have h4 : (4 : Nat) &&& 4 ≠ 0 := by decide
  simp only [xxhash64, if_pos h32, xxh64_small, if_neg h8, if_pos h4, e]
  rfl

theorem xxhash64_len8_injective (b1 b2 : List Byte) (seed : Nat) (hl1 : b1.length = 8)
    (hl2 : b2.length = 8) (h : xxhash64 b1 8 seed = xxhash64 b2 8 seed) : b1 = b2 := by
  rw [xxhash64_len8 b1 seed hl1, xxhash64_len8 b2 seed hl2, Option.some.injEq] at h
  have hk1 : readLE b1 0 8 < 2 ^ 64 := readLE_lt b1 8 0
  have hk2 : readLE b2 0 8 < 2 ^ 64 := readLE_lt b2 8 0
  have hmix := xxh64_final_mix_injective _ _ (Nat.mod_lt _ (by decide))
    (Nat.mod_lt _ (by decide)) h
  rw [Nat.xor_comm _ (xxh64_round 0 (readLE b1 0 8)),
    Nat.xor_comm _ (xxh64_round 0 (readLE b2 0 8))] at hmix
  have hround := mixStep_injective XXH_PRIME64_1 _ _ XXH_PRIME64_4 27 _ _ PRIME1_inv
    (by decide) (by decide) (Nat.mod_lt _ (by decide)) (xxh64_round_lt 0 _)
    (xxh64_round_lt 0 _) hmix
  exact eq_of_readLE_eq b1 b2 8 hl1 hl2 (xxh64_round_zero_injective _ _ hk1 hk2 hround)

theorem xxhash64_len4_injective (b1 b2 : List Byte) (seed : Nat) (hl1 : b1.length = 4)
    (hl2 : b2.length = 4) (h : xxhash64 b1 4 seed = xxhash64 b2 4 seed) : b1 = b2 := by
  rw [xxhash64_len4 b1 seed hl1, xxhash64_len4 b2 seed hl2, Option.some.injEq] at h
  have hk1 : readLE b1 0 4 < U64 :=
    lt_of_lt_of_le (readLE_lt b1 4 0) (by decide)
  have hk2 : readLE b2 0 4 < U64 :=
    lt_of_lt_of_le (readLE_lt b2 4 0) (by decide)
  have hmix := xxh64_final_mix_injective _ _ (Nat.mod_lt _ (by decide))
    (Nat.mod_lt _ (by decide)) h
  rw [Nat.xor_comm _ ((readLE b1 0 4 * XXH_PRIME64_1) % U64),
    Nat.xor_comm _ ((readLE b2 0 4 * XXH_PRIME64_1) % U64)] at hmix
  have hmul := mixStep_injective XXH_PRIME64_2 _ _ XXH_PRIME64_3 23 _ _ PRIME2_inv
    (by decide) (by decide) (Nat.mod_lt _ (by decide)) (Nat.mod_lt _ (by decide))
    (Nat.mod_lt _ (by decide)) hmix
  exact eq_of_readLE_eq b1 b2 4 hl1 hl2
    (mul_mod_U64_injective XXH_PRIME64_1 _ _ _ PRIME1_inv hk1 hk2 hmul)

/-- C16: for every seed, two distinct byte sequences of the same length 8,
or of the same length 4, get distinct digests from `xxhash64`. -/
theorem c16_no_collision_len_8_or_4 (b1 b2 : List Byte) (n seed : Nat)
    (hn : n = 8 ∨ n = 4) (hl1 : b1.length = n) (hl2 : b2.length = n) (hne : b1 ≠ b2) :
    xxhash64 b1 n seed ≠ xxhash64 b2 n seed := by
  intro heq
  rcases hn with hn | hn
  · subst hn
    exact hne (xxhash64_len8_injective b1 b2 seed hl1 hl2 heq)
  · subst hn
    exact hne (xxhash64_len4_injective b1 b2 seed hl1 hl2 heq)

theorem c16_no_collision_len_8_or_4_witness :
    ((8 : Nat) = 8 ∨ (8 : Nat) = 4) ∧
      ([1, 2, 3, 4, 5, 6, 7, 8] : List Byte).length = 8 ∧
      ([1, 2, 3, 4, 5, 6, 7, 9] : List Byte).length = 8 ∧
      ([1, 2, 3, 4, 5, 6, 7, 8] : List Byte) ≠ [1, 2, 3, 4, 5, 6, 7, 9] ∧
      xxhash64 [1, 2, 3, 4, 5, 6, 7, 8] 8 77 ≠ xxhash64 [1, 2, 3, 4, 5, 6, 7, 9] 8 77 :=
  ⟨by decide, by decide, by decide, by decide,
    c16_no_collision_len_8_or_4 [1, 2, 3, 4, 5, 6, 7, 8] [1, 2, 3, 4, 5, 6, 7, 9] 8 77
      (by decide) (by decide) (by decide) (by decide)⟩

end CXXHash64
